import Mathlib

/-!
Verification of the micro-cc agent runtime against its specification.

The development shallowly embeds the parts of the Python sources that the
properties below are about:

* `src/utils/msg_store_.py` — transcript store (`store_msgs`, `load_msgs`,
  `_normalize_message`);
* `src/tools/plan_tools_.py` — plan tracker (`make_plan`, `update_step`,
  `add_step`);
* `src/claude_loop_.py` — the agent loop (`claude_loop`): event stream,
  approval gate over `DANGEROUS_TOOLS`, concurrent dispatch via
  `asyncio.gather`, folding of tool results into history, persistence on
  every exit path;
* `utils/tokenization.token_cutter` — the context budgeter; this module is
  imported by `src/claude_loop_.py` but its source is not part of the
  repository snapshot, so it is modelled from the specification (see the
  doc comment on `token_cutter`).

External collaborators (the model call, tool handlers, the approval
decision made by the consumer of the event stream, and the completion
order of concurrently running tools) are passed in as explicit oracle
parameters, so a run of the loop is a pure function of those oracles.
-/

/-! ## Data model: messages and content blocks

Mirrors the dict shapes used throughout `src/claude_loop_.py` and
`src/utils/msg_store_.py`: a message has a `role` and a `content` that is
either a plain string or a list of typed blocks. -/

/-- One typed content block, as in the Anthropic message dicts the loop
builds (`thinking`, `text`, `tool_use`, `tool_result`). -/
inductive Block where
  | thinking (thinking signature : String)
  | text (text : String)
  | tool_use (id name input : String)
  | tool_result (tool_use_id content : String)
deriving Repr, DecidableEq

/-- Message content: a plain string or an ordered block list. -/
inductive Content where
  | str (s : String)
  | blocks (bs : List Block)
deriving Repr, DecidableEq

/-- One conversation turn (`{"role": ..., "content": ...}`). -/
structure Message where
  role : String
  content : Content
deriving Repr, DecidableEq

/-! ## Transcript store (`src/utils/msg_store_.py`)

`store_msgs` rewrites the whole JSONL file, passing every message through
`_normalize_message`; `load_msgs` reads it back through
`_reconstruct_message`.  The `ts` timestamp added by `_normalize_message`
is write-only metadata (dropped again by `_reconstruct_message`), so it is
omitted from the embedding; file/JSON round-tripping is modelled as the
identity on the stored message list. -/

/-- Tests whether a block is a `thinking` block (`item.get("type") == "thinking"`). -/
def isThinkingBlock : Block → Bool
  | .thinking _ _ => true
  | _ => false

/-- The block-list filtering of `_normalize_message`: thinking blocks are
skipped, every other block is kept (`src/utils/msg_store_.py:94-122`). -/
def stripThinking (bs : List Block) : List Block :=
  bs.filter (fun b => !isThinkingBlock b)

/-- The single-text unwrap of `_normalize_message`
(`src/utils/msg_store_.py:124-126`): a block list consisting of exactly one
text block becomes its plain string. -/
def unwrapSingleText : List Block → Content
  | [Block.text t] => .str t
  | bs => .blocks bs

/-- Content part of `_normalize_message`: strings pass through; block lists
are stripped of thinking blocks and then unwrapped when a single text block
remains. -/
def normalize_content : Content → Content
  | .str s => .str s
  | .blocks bs => unwrapSingleText (stripThinking bs)

/-- Embedding of `_normalize_message` (`src/utils/msg_store_.py:78-128`), minus the
write-only `ts` field. -/
def normalize_message (m : Message) : Message :=
  { role := m.role, content := normalize_content m.content }

/-- Embedding of `store_msgs` (`src/utils/msg_store_.py:32-44`): the stored file holds
every message normalized, in order. -/
def store_msgs (msgs : List Message) : List Message :=
  msgs.map normalize_message

/-- Embedding of `_reconstruct_message` (`src/utils/msg_store_.py:131-136`): keeps role
and content of a stored line. -/
def reconstruct_message (m : Message) : Message :=
  { role := m.role, content := m.content }

/-- Embedding of `load_msgs` (`src/utils/msg_store_.py:47-66`) applied to a stored file. -/
def load_msgs (file : List Message) : List Message :=
  file.map reconstruct_message

/-! ## Plan tracker (`src/tools/plan_tools_.py`)

The Redis layer (`get_plan`/`set_plan`) and the JSON (de)serialization are
external storage; the embedding works on the parsed plan dict directly.
Operations return `Except String` mirroring the `"Error: ..."` string
returns of the Python functions (success carries the new plan). -/

/-- The structured plan dict built by `make_plan`
(`src/tools/plan_tools_.py:32-40`). -/
structure Plan where
  title : String
  context : String
  steps : List String
  step_statuses : List String
  step_findings : List String
  current_step_index : Nat
  created_at : Nat
deriving Repr, DecidableEq

/-- The status vocabulary accepted by `update_step`
(`src/tools/plan_tools_.py:99`). -/
def allowed_statuses : List String :=
  ["not_started", "in_progress", "completed", "blocked"]

/-- Embedding of `make_plan` (`src/tools/plan_tools_.py:5-55`) after JSON parsing: the
`content` argument has been decoded into `title`, `steps`, `context` (the
empty-content / bad-JSON / missing-field error returns guard that decoding
and are prior to this point). -/
def make_plan (title : String) (steps : List String) (ctx : String)
    (now : Nat) : Except String Plan :=
  if steps.length = 0 then
    .error "Error: Steps must be a non-empty list"
  else
    .ok { title := title
          context := ctx
          steps := steps
          step_statuses := List.replicate steps.length "not_started"
          step_findings := List.replicate steps.length ""
          current_step_index := 0
          created_at := now }

/-- Python truthiness of an optional string argument: `None` and `""` are
both falsy (`if status:` / `if findings:` in `update_step`). -/
def strTruthy : Option String → Bool
  | some s => s != ""
  | none => false

/-- The `if status:` body of `update_step`
(`src/tools/plan_tools_.py:98-110`): set the addressed step's status and,
when it is `completed` and the addressed step is the current one,
auto-advance `current_step_index` to the next index or to `len(steps)`. -/
def apply_status (p : Plan) (k : Nat) (status : Option String) : Plan :=
  if strTruthy status then
    let s := status.getD ""
    let withStatus := { p with step_statuses := p.step_statuses.set k s }
    if s = "completed" ∧ k = p.current_step_index then
      { withStatus with
        current_step_index :=
          if k + 1 < p.steps.length then k + 1 else p.steps.length }
    else withStatus
  else p

/-- The `if findings:` body of `update_step`
(`src/tools/plan_tools_.py:112-113`): overwrite the addressed step's
findings slot. -/
def apply_findings (p : Plan) (k : Nat) (findings : Option String) : Plan :=
  if strTruthy findings then
    { p with step_findings := p.step_findings.set k (findings.getD "") }
  else p

/-- Embedding of `update_step` (`src/tools/plan_tools_.py:61-121`) on a parsed plan.
`step_index?`/`status`/`findings` are the optional arguments (`None`
modelled as `none`).  Success returns the updated plan together with the
resolved step index (the index echoed in the success message). -/
def update_step (p : Plan) (step_index? : Option Int)
    (status findings : Option String) : Except String (Plan × Nat) :=
  let idx : Int := step_index?.getD (p.current_step_index : Int)
  if idx < 0 ∨ (p.steps.length : Int) ≤ idx then
    .error "Error: Invalid step index"
  else if strTruthy status && !(allowed_statuses.contains (status.getD "")) then
    .error "Error: Invalid status. Use: not_started, in_progress, completed, blocked"
  else
    .ok (apply_findings (apply_status p idx.toNat status) idx.toNat findings,
         idx.toNat)

/-- Embedding of `add_step` (`src/tools/plan_tools_.py:124-162`) on a parsed plan: always
appends to the end, extending all three arrays in lockstep and leaving
`current_step_index` untouched. -/
def add_step (p : Plan) (step_description : String) : Plan :=
  { p with
    steps := p.steps ++ [step_description]
    step_statuses := p.step_statuses ++ ["not_started"]
    step_findings := p.step_findings ++ [""] }

/-- Well-formedness of a plan: the three per-step arrays stay in lockstep
(the invariant of §3 of the spec). -/
def planWF (p : Plan) : Prop :=
  p.steps.length = p.step_statuses.length ∧
  p.steps.length = p.step_findings.length

/-! ## Agent loop (`src/claude_loop_.py`)

The `while True` body of `claude_loop` (lines 138-307) is embedded as a
recursive function over the sequence of model responses.  Oracles:

* `Response` — one outcome of `model_call` per iteration; `failure`
  is the exception path of the `try` block (lines 297-302), `success`
  carries the thinking block, text block and `tool_use` blocks extracted
  from `response.content` (lines 173-181);
* the approval decisions the consumer writes into the mutable
  `approval` cells (line 208/216), consumed one per dangerous tool in
  request order (`List (Option Bool)`; `none` = cell never set);
* `execTool` — `execute_tool_call` (tool handlers), a pure oracle;
* `sched` — the completion order of the concurrently running tool tasks
  inside `asyncio.gather` (line 231), as the list of request indices in
  the order the tasks finish.

Reminder assembly and `token_cutter` trimming (lines 139-162) only shape
the *input* of `model_call`, which the `Response` oracle abstracts, so
they do not appear in the loop state.  The `search_tools` discovery side
effect (lines 257-266) touches only the Redis registry, not the
history/event state the claims are about. -/

/-- One `tool_use` block of a model response (lines 179-181). -/
structure ToolUse where
  id : String
  name : String
  input : String
deriving Repr, DecidableEq

/-- The thinking block of a model response (content + signature). -/
structure ThinkingBlock where
  thinking : String
  signature : String
deriving Repr, DecidableEq

/-- Outcome of one `model_call` (lines 165-181): transport/processing
failure, or the classified blocks of a successful response. -/
inductive Response where
  | failure (msg : String)
  | success (thinking? : Option ThinkingBlock) (text? : Option String)
      (tool_uses : List ToolUse)
deriving Repr, DecidableEq

/-- The tagged events the generator yields (§6 of the spec; the `yield`
statements of `claude_loop`). -/
inductive Event where
  | status (message : String)
  | thinking (content : String)
  | text (content : String)
  | tool_call (name input : String)
  | approval_request (name input : String)
  | cancelled
  | tool_result (name output : String)
  | final_text (content : String)
  | error (message : String)
  | done
deriving Repr, DecidableEq

/-- Embedding of `DANGEROUS_TOOLS` (`src/claude_loop_.py:33`). -/
def DANGEROUS_TOOLS : List String := ["bash_", "edit_", "write_"]

/-- Static context of one loop run: registered local tool names (the keys
of the `tools` dict), the dangerous set, and the tool-execution oracle. -/
structure LoopEnv where
  tools : List String
  dangerous : List String
  execTool : ToolUse → String

/-- Python truthiness of the `approval["approved"]` cell at line 216: the
batch proceeds past a dangerous tool only on an explicit `True`. -/
def decisionTruthy : Option Bool → Bool
  | some true => true
  | _ => false

/-- Result of the per-block approval walk. -/
structure ApprovalOutcome where
  events : List Event
  remaining : List (Option Bool)
  approved : Bool
deriving Repr, DecidableEq

/-- The `for tool_use_block in local_tool_blocks` loop of lines 200-221:
yields a `tool_call` event per block, and for dangerous tools an
`approval_request`; a decision that is not exactly `some true` stops the
walk (the generator `return`s).  Returns the events emitted, the unconsumed
decisions, and whether the whole batch was approved. -/
def approvalPhase (dangerous : List String) :
    List ToolUse → List (Option Bool) → ApprovalOutcome
  | [], apps => ⟨[], apps, true⟩
  | tb :: rest, apps =>
    if dangerous.contains tb.name then
      match apps with
      | [] =>
        ⟨[.tool_call tb.name tb.input, .approval_request tb.name tb.input],
         [], false⟩
      | d :: apps' =>
        if decisionTruthy d then
          let o := approvalPhase dangerous rest apps'
          ⟨.tool_call tb.name tb.input :: .approval_request tb.name tb.input
             :: o.events, o.remaining, o.approved⟩
        else
          ⟨[.tool_call tb.name tb.input, .approval_request tb.name tb.input],
           apps', false⟩
    else
      let o := approvalPhase dangerous rest apps
      ⟨.tool_call tb.name tb.input :: o.events, o.remaining, o.approved⟩

/-- Fan-in half of `asyncio.gather`: completions arrive as
`(request index, result)` pairs in completion order and are filed into the
result slot for their index. -/
def fanIn (acc : List (Option String)) : List (Nat × String) → List (Option String)
  | [] => acc
  | c :: rest => fanIn (acc.set c.1 (some c.2)) rest

/-- Embedding of `asyncio.gather(*tool_tasks)` at line 231: all tasks run, each
completes once, in the order given by `sched`; the gathered list is
indexed by request position, independent of completion order. -/
def gather (execTool : ToolUse → String) (lbs : List ToolUse)
    (sched : List Nat) : List String :=
  let completions := sched.filterMap
    (fun i => (lbs[i]?).map (fun tb => (i, execTool tb)))
  (fanIn (List.replicate lbs.length none) completions).map (fun r => r.getD "")

/-- Python `str(result)[:500]` (line 271): first `n` characters. -/
def truncateStr (n : Nat) (s : String) : String := ⟨s.data.take n⟩

/-- The assistant message appended at line 253: optional thinking block
followed by the local `tool_use` blocks (lines 235-252). -/
def assistant_tool_msg (thinking? : Option ThinkingBlock)
    (lbs : List ToolUse) : Message :=
  { role := "assistant"
    content := .blocks
      ((match thinking? with
        | some t => [Block.thinking t.thinking t.signature]
        | none => []) ++
       lbs.map (fun tb => Block.tool_use tb.id tb.name tb.input)) }

/-- The tool-result message appended at line 284: one `tool_result` block
per local request, in request order, carrying the untruncated result text
(lines 255-284). -/
def tool_result_msg (lbs : List ToolUse) (results : List String) : Message :=
  { role := "user"
    content := .blocks
      ((lbs.zip results).map (fun p => Block.tool_result p.1.id p.2)) }

/-- How a run of the loop ended. -/
inductive LoopExit where
  | done
  | cancelled
  | errored
  | outOfResponses
deriving Repr, DecidableEq

/-- Observable outcome of a loop run: the event stream, the in-memory
history at the end, the last content written to the transcript store
(`none` if never written), the tool invocations that actually executed,
and the exit kind.  `outOfResponses` marks a run that did not terminate
within the supplied response oracle. -/
structure LoopResult where
  events : List Event
  msgs : List Message
  stored : Option (List Message)
  executed : List ToolUse
  exit : LoopExit
deriving Repr, DecidableEq

/-- Events emitted at lines 183-194 before dispatch: the thinking content,
and the intermediate text only when tool_use blocks are present. -/
def preEvents (thinking? : Option ThinkingBlock) (text? : Option String)
    (tool_uses : List ToolUse) : List Event :=
  (match thinking? with
   | some t => [Event.thinking t.thinking]
   | none => []) ++
  (match text? with
   | some t => if tool_uses.isEmpty then [] else [Event.text t]
   | none => [])

/-- The `while True` loop of `claude_loop` (lines 138-307).  Arguments
after `env`: the model-response oracle (paired with each iteration's
completion schedule), the approval-decision stream, the current in-memory
`msgs`, and the transcript-store content carried in from before the run. -/
def runLoop (env : LoopEnv) :
    List (Response × List Nat) → List (Option Bool) → List Message →
    Option (List Message) → LoopResult
  | [], _, msgs, st => ⟨[], msgs, st, [], .outOfResponses⟩
  | (r, sched) :: rest, apps, msgs, st =>
    match r with
    | .failure e =>
      -- lines 297-302 then 304-307: error event, break, final store, done
      ⟨[.error e, .done], msgs, some (store_msgs msgs), [], .errored⟩
    | .success th tx tus =>
      let pre := preEvents th tx tus
      if tus.isEmpty then
        match tx with
        | some t =>
          -- lines 287-295 then 304-307: append final text, store, break,
          -- store again, done
          let msgs' := msgs ++ [⟨"assistant", .str t⟩]
          ⟨pre ++ [.final_text t, .done], msgs', some (store_msgs msgs'),
           [], .done⟩
        | none =>
          -- neither tool use nor text: the loop just iterates again
          let res := runLoop env rest apps msgs st
          ⟨pre ++ res.events, res.msgs, res.stored, res.executed, res.exit⟩
      else
        -- line 198: MCP tool calls execute inside the API; only names
        -- registered in the local `tools` dict are dispatched here
        let localBlocks := tus.filter (fun tb => env.tools.contains tb.name)
        let ap := approvalPhase env.dangerous localBlocks apps
        if ap.approved then
          let results := gather env.execTool localBlocks sched
          let msgs' :=
            if localBlocks.isEmpty then msgs
            else msgs ++ [assistant_tool_msg th localBlocks,
                          tool_result_msg localBlocks results]
          let resultEvents :=
            if localBlocks.isEmpty then []
            else (localBlocks.zip results).map
              (fun p => Event.tool_result p.1.name (truncateStr 500 p.2))
          let res := runLoop env rest ap.remaining msgs' st
          ⟨pre ++ ap.events ++ resultEvents ++ res.events, res.msgs,
           res.stored, localBlocks ++ res.executed, res.exit⟩
        else
          -- lines 216-221: store as-is, yield cancelled, return
          ⟨pre ++ ap.events ++ [.cancelled], msgs, some (store_msgs msgs),
           [], .cancelled⟩

/-! ## Context budgeter (`utils.tokenization.token_cutter`)

`claude_loop` imports `token_cutter` from `utils.tokenization`
(`src/claude_loop_.py:26`) and calls it at lines 160-162, but that module
is not part of the repository snapshot; the definitions below are modelled
from §4.4 of the specification. -/

/-- Role test used to decide which messages are always preserved. -/
def isSystem (m : Message) : Bool := m.role == "system"

/-- Does the message carry any capability-request (`tool_use`) block? -/
def hasToolUse (m : Message) : Bool :=
  match m.content with
  | .blocks bs => bs.any (fun b => match b with
      | .tool_use _ _ _ => true
      | _ => false)
  | .str _ => false

/-- Does the message carry any capability-result (`tool_result`) block? -/
def hasToolResult (m : Message) : Bool :=
  match m.content with
  | .blocks bs => bs.any (fun b => match b with
      | .tool_result _ _ => true
      | _ => false)
  | .str _ => false

/-- Encoded token count of a message sequence for an abstract tokenizer. -/
def totalTokens (tok : Message → Nat) (msgs : List Message) : Nat :=
  (msgs.map tok).sum

/-- Request/result pairing discipline of a history: every message holding
`tool_use` blocks is immediately followed by a message holding
`tool_result` blocks (consumed as one unit), and no `tool_result` message
appears without such a preceding request message. -/
def pairedOK : List Message → Bool
  | [] => true
  | m :: rest =>
    if hasToolUse m then
      match rest with
      | r :: rest' => hasToolResult r && pairedOK rest'
      | [] => false
    else
      !(hasToolResult m) && pairedOK rest

/-- Modelled from the spec: one dropping step of the budgeter of §4.4
(`utils.tokenization.token_cutter`, module absent from src/).  Removes the
oldest non-system message; when that message carries capability-request
blocks, its paired capability-result message is removed with it so the cut
never orphans a result.  Returns `none` when only system messages remain. -/
def dropOldestUnit : List Message → Option (List Message)
  | [] => none
  | m :: rest =>
    if isSystem m then (dropOldestUnit rest).map (fun r => m :: r)
    else if hasToolUse m then
      match rest with
      | r :: rest' => some (if hasToolResult r then rest' else rest)
      | [] => some []
    else some rest

/-- Modelled from the spec: fuelled iteration of the dropping step; the
fuel is an upper bound on the number of drops (each drop strictly shortens
the list, so `msgs.length` fuel always reaches a fixpoint). -/
def token_cutter_aux (tok : Message → Nat) (budget : Nat) :
    Nat → List Message → List Message
  | 0, msgs => msgs
  | fuel + 1, msgs =>
    if totalTokens tok msgs ≤ budget then msgs
    else
      match dropOldestUnit msgs with
      | none => msgs
      | some msgs' => token_cutter_aux tok budget fuel msgs'

/-- Modelled from the spec: `trim(messages, tokenizer, budget)` of §4.4
(`utils.tokenization.token_cutter`, module absent from src/): drop the
oldest non-system messages first, always preserving system messages and
never splitting a paired request/result unit, until the encoded token
count fits the budget. -/
def token_cutter (msgs : List Message) (tok : Message → Nat)
    (budget : Nat) : List Message :=
  token_cutter_aux tok budget msgs.length msgs

/-! ## Fixtures for witnesses and counterexamples -/

/-- Predicate picking out capability-result events. -/
def isToolResultEvent : Event → Bool
  | .tool_result _ _ => true
  | _ => false

/-- All capability-result block contents occurring in a history, in order. -/
def resultContents (msgs : List Message) : List String :=
  (msgs.map (fun m => match m.content with
    | .blocks bs => bs.filterMap (fun b => match b with
        | .tool_result _ c => some c
        | _ => none)
    | .str _ => [])).flatten

/-- Sample environment: two registered tools, standard dangerous set, and
a tool-execution oracle echoing the tool name. -/
def envW : LoopEnv :=
  { tools := ["bash_", "read_"]
    dangerous := DANGEROUS_TOOLS
    execTool := fun tb => String.append "ok:" tb.name }

/-- Environment whose only tool returns a 501-character result. -/
def envLong : LoopEnv :=
  { tools := ["read_"]
    dangerous := DANGEROUS_TOOLS
    execTool := fun _ => ⟨List.replicate 501 'a'⟩ }

/-- A benign tool-use block. -/
def tbRead : ToolUse := ⟨"tu1", "read_", "f.txt"⟩

/-- A second benign tool-use block. -/
def tbRead2 : ToolUse := ⟨"tu2", "read_", "g.txt"⟩

/-- A dangerous tool-use block. -/
def tbBash : ToolUse := ⟨"tu3", "bash_", "rm x"⟩

/-- Sample well-formed two-step plan with non-empty findings on step 0. -/
def planW : Plan :=
  { title := "t"
    context := ""
    steps := ["A", "B"]
    step_statuses := ["in_progress", "not_started"]
    step_findings := ["old", ""]
    current_step_index := 0
    created_at := 0 }

/-- Expected result of updating step 1 of `planW` to `in_progress` with
findings `"note"`. -/
def planW1 : Plan :=
  { planW with
    step_statuses := ["in_progress", "in_progress"]
    step_findings := ["old", "note"] }

/-- Expected result of marking step 0 of `planW` completed: the current
step auto-advances. -/
def planWc0 : Plan :=
  { planW with
    step_statuses := ["completed", "not_started"]
    current_step_index := 1 }

/-- Expected result of marking step 1 of `planW` completed: the current
step stays put. -/
def planWc1 : Plan :=
  { planW with step_statuses := ["in_progress", "completed"] }

/-- Expected result of replacing step 0 findings of `planW` with `"new"`. -/
def planWf : Plan :=
  { planW with step_findings := ["new", ""] }

/-- Sample assistant message carrying one capability request. -/
def reqMsg : Message := ⟨"assistant", .blocks [Block.tool_use "t1" "read_" "f"]⟩

/-- Sample user message carrying the paired capability result. -/
def resMsg : Message := ⟨"user", .blocks [Block.tool_result "t1" "data"]⟩

/-- Sample system message. -/
def sysMsg : Message := ⟨"system", .str "prompt"⟩

/-- Sample user message. -/
def userMsg : Message := ⟨"user", .str "hello"⟩

/-! ## Theorems -/

theorem load_msgs_id (L : List Message) : load_msgs L = L := by
  have h : reconstruct_message = id := funext fun m => rfl
  rw [load_msgs, h, List.map_id]

theorem normalize_content_idem (c : Content) :
    normalize_content (normalize_content c) = normalize_content c := by
  cases c with
  | str s => rfl
  | blocks bs =>
    show normalize_content (unwrapSingleText (stripThinking bs)) =
      unwrapSingleText (stripThinking bs)
    have hl : ∀ b ∈ stripThinking bs, (!isThinkingBlock b) = true :=
      fun b hb => (List.mem_filter.mp hb).2
    generalize stripThinking bs = l at hl
    match l, hl with
    | [], _ => rfl
    | [Block.thinking a sg], hl =>
      exact absurd (hl (Block.thinking a sg) (List.mem_singleton_self _))
        (by simp [isThinkingBlock])
    | [Block.text t], _ => rfl
    | [Block.tool_use i n inp], _ => rfl
    | [Block.tool_result i ct], _ => rfl
    | b :: b' :: rest, hl =>
      have hfix : stripThinking (b :: b' :: rest) = b :: b' :: rest :=
        List.filter_eq_self.mpr hl
      simp only [unwrapSingleText, normalize_content, hfix]

theorem normalize_message_idem (m : Message) :
    normalize_message (normalize_message m) = normalize_message m := by
  simp [normalize_message, normalize_content_idem]

/-- C4: loading a project's transcript immediately after storing history
`H` yields `H'`, which is `H` with thinking blocks removed from block-list
contents and single-text block lists unwrapped to plain strings
(`normalize_message`); the normalization is idempotent, so storing and
loading `H'` again yields `H'` unchanged. -/
theorem C4_persistence_roundtrip (H : List Message) :
    load_msgs (store_msgs H) = H.map normalize_message ∧
    load_msgs (store_msgs (load_msgs (store_msgs H))) =
      load_msgs (store_msgs H) := by
  constructor
  · exact load_msgs_id _
  · rw [load_msgs_id, load_msgs_id, store_msgs, store_msgs, List.map_map]
    exact List.map_congr_left fun m _ => normalize_message_idem m

theorem apply_status_steps (p : Plan) (k : Nat) (st : Option String) :
    (apply_status p k st).steps = p.steps := by
  simp only [apply_status]
  repeat' split
  all_goals rfl

theorem apply_status_statuses_length (p : Plan) (k : Nat) (st : Option String) :
    (apply_status p k st).step_statuses.length = p.step_statuses.length := by
  simp only [apply_status]
  repeat' split
  all_goals simp [List.length_set]

theorem apply_status_findings (p : Plan) (k : Nat) (st : Option String) :
    (apply_status p k st).step_findings = p.step_findings := by
  simp only [apply_status]
  repeat' split
  all_goals rfl

theorem apply_findings_steps (p : Plan) (k : Nat) (f : Option String) :
    (apply_findings p k f).steps = p.steps := by
  simp only [apply_findings]
  split <;> rfl

theorem apply_findings_statuses (p : Plan) (k : Nat) (f : Option String) :
    (apply_findings p k f).step_statuses = p.step_statuses := by
  simp only [apply_findings]
  split <;> rfl

theorem apply_findings_current (p : Plan) (k : Nat) (f : Option String) :
    (apply_findings p k f).current_step_index = p.current_step_index := by
  simp only [apply_findings]
  split <;> rfl

theorem apply_findings_length (p : Plan) (k : Nat) (f : Option String) :
    (apply_findings p k f).step_findings.length = p.step_findings.length := by
  simp only [apply_findings]
  split <;> simp [List.length_set]

/-- Success shape of `update_step`: the returned plan is the composite of
the status and findings updates at the resolved index, which is in range. -/
theorem update_step_ok (p : Plan) (i? : Option Int) (st f : Option String)
    (p' : Plan) (k : Nat) (h : update_step p i? st f = .ok (p', k)) :
    p' = apply_findings (apply_status p k st) k f ∧
    (k : Int) = i?.getD (p.current_step_index : Int) ∧
    k < p.steps.length := by
  simp only [update_step] at h
  split at h
  · exact absurd h (by simp)
  · split at h
    · exact absurd h (by simp)
    · rename_i hrange _
      rw [Except.ok.injEq, Prod.mk.injEq] at h
      obtain ⟨hp, hk⟩ := h
      push_neg at hrange
      obtain ⟨hge, hlt⟩ := hrange
      subst hk
      refine ⟨hp.symm, ?_, ?_⟩
      · exact Int.toNat_of_nonneg hge
      · omega

/-- C5: the three per-step arrays of a plan stay the same length after
every successful `make_plan`, `update_step` and `add_step` operation. -/
theorem C5_plan_arrays_in_lockstep :
    (∀ title steps ctx now p, make_plan title steps ctx now = .ok p → planWF p) ∧
    (∀ p i st f p' k, planWF p → update_step p i st f = .ok (p', k) → planWF p') ∧
    (∀ p d, planWF p → planWF (add_step p d)) := by
  refine ⟨?_, ?_, ?_⟩
  · intro title steps ctx now p h
    rw [make_plan] at h
    split at h
    · exact absurd h (by simp)
    · cases h
      simp [planWF]
  · intro p i st f p' k hwf h
    obtain ⟨hp, -, -⟩ := update_step_ok p i st f p' k h
    subst hp
    obtain ⟨h1, h2⟩ := hwf
    constructor
    · rw [apply_findings_steps, apply_findings_statuses, apply_status_steps,
        apply_status_statuses_length, h1]
    · rw [apply_findings_steps, apply_status_steps, apply_findings_length,
        apply_status_findings, h2]
  · intro p d hwf
    obtain ⟨h1, h2⟩ := hwf
    constructor <;> simp [add_step] <;> omega

/-- Witness for C5 at concrete inputs: a fresh two-step plan, a successful
`update_step` and an `add_step` all preserve the length invariant. -/
theorem C5_plan_arrays_in_lockstep_witness :
    make_plan "t" ["A", "B"] "" 0 =
      .ok { title := "t"
            context := ""
            steps := ["A", "B"]
            step_statuses := ["not_started", "not_started"]
            step_findings := ["", ""]
            current_step_index := 0
            created_at := 0 } ∧
    planWF planW ∧
    update_step planW (some 1) (some "in_progress") (some "note") =
      .ok (planW1, 1) ∧
    planWF planW1 ∧
    planWF (add_step planW "C") := by
  refine ⟨by rfl, ⟨by decide, by decide⟩, by rfl, ?_, ?_⟩
  · exact C5_plan_arrays_in_lockstep.2.1 planW (some 1) (some "in_progress")
      (some "note") planW1 1 ⟨by decide, by decide⟩ (by rfl)
  · exact C5_plan_arrays_in_lockstep.2.2 planW "C" ⟨by decide, by decide⟩

theorem apply_status_statuses_get_ne (p : Plan) (k : Nat) (st : Option String)
    (j : Nat) (h : j ≠ k) :
    (apply_status p k st).step_statuses[j]? = p.step_statuses[j]? := by
  simp only [apply_status]
  repeat' split
  all_goals simp [List.getElem?_set_ne (Ne.symm h)]

theorem apply_status_completed_current (p : Plan) (k : Nat)
    (hk : k < p.steps.length) :
    (k = p.current_step_index →
      (apply_status p k (some "completed")).current_step_index =
        p.current_step_index + 1) ∧
    (k ≠ p.current_step_index →
      (apply_status p k (some "completed")).current_step_index =
        p.current_step_index) := by
  have hst : strTruthy (some "completed") = true := rfl
  constructor
  · intro he
    simp only [apply_status, hst, if_true, Option.getD]
    rw [if_pos ⟨trivial, he⟩]
    simp only []
    split <;> omega
  · intro hne
    simp only [apply_status, hst, if_true, Option.getD]
    rw [if_neg (fun hc => hne hc.2)]

/-- C6: a successful `update_step` with status `completed` on the step
equal to `current_step_index` advances `current_step_index` by exactly one
(which is `len(steps)` when that step was the last); completing any other
step leaves `current_step_index` unchanged; and no `update_step` ever
alters the status of a step other than the one addressed. -/
theorem C6_completed_advances_current :
    ∀ p i st f p' k, update_step p i st f = .ok (p', k) →
      (∀ j, j ≠ k → p'.step_statuses[j]? = p.step_statuses[j]?) ∧
      (st = some "completed" →
        (k = p.current_step_index →
          p'.current_step_index = p.current_step_index + 1) ∧
        (k ≠ p.current_step_index →
          p'.current_step_index = p.current_step_index)) := by
  intro p i st f p' k h
  obtain ⟨hp, -, hk⟩ := update_step_ok p i st f p' k h
  subst hp
  constructor
  · intro j hj
    rw [apply_findings_statuses]
    exact apply_status_statuses_get_ne p k st j hj
  · intro hst
    subst hst
    rw [apply_findings_current]
    exact apply_status_completed_current p k hk

/-- Witness for C6: on `planW` (current step 0 of 2), completing step 0
advances the current index to 1; completing step 1 leaves it at 0 and does
not touch step 0's status. -/
theorem C6_completed_advances_current_witness :
    update_step planW (some 0) (some "completed") none = .ok (planWc0, 0) ∧
    planWc0.current_step_index = planW.current_step_index + 1 ∧
    update_step planW (some 1) (some "completed") none = .ok (planWc1, 1) ∧
    planWc1.current_step_index = planW.current_step_index ∧
    planWc1.step_statuses[0]? = planW.step_statuses[0]? := by
  have h0 : update_step planW (some 0) (some "completed") none =
      .ok (planWc0, 0) := by rfl
  have h1 : update_step planW (some 1) (some "completed") none =
      .ok (planWc1, 1) := by rfl
  refine ⟨h0, ?_, h1, ?_, ?_⟩
  · exact ((C6_completed_advances_current planW (some 0) (some "completed")
      none planWc0 0 h0).2 rfl).1 rfl
  · exact ((C6_completed_advances_current planW (some 1) (some "completed")
      none planWc1 1 h1).2 rfl).2 (by decide)
  · exact (C6_completed_advances_current planW (some 1) (some "completed")
      none planWc1 1 h1).1 0 (by decide)

/-- C8 counterexample: the claim asserts a supplied empty findings string
replaces the step's findings, but `if findings:` is false for `""`, so the
update leaves the prior findings `"old"` untouched. -/
theorem C8_empty_findings_counterexample :
    update_step planW (some 0) none (some "") = .ok (planW, 0) ∧
    planW.step_findings[0]? = some "old" ∧ ("old" : String) ≠ "" := by
  exact ⟨by rfl, by rfl, by decide⟩

/-- C8 (amended): a successful `update_step` with a non-empty findings
string fully replaces the addressed step's findings slot (no merge, all
other slots untouched); a supplied empty findings string is falsy and
leaves the findings arrays unchanged. -/
theorem C8_findings_full_replace :
    ∀ p i st f p' k, update_step p i st (some f) = .ok (p', k) →
      (f ≠ "" → p'.step_findings = p.step_findings.set k f) ∧
      (f = "" → p'.step_findings = p.step_findings) := by
  intro p i st f p' k h
  obtain ⟨hp, -, -⟩ := update_step_ok p i st (some f) p' k h
  subst hp
  constructor
  · intro hf
    have ht : strTruthy (some f) = true := by simp [strTruthy, hf]
    simp only [apply_findings, ht, if_true, Option.getD]
    simp [apply_status_findings]
  · intro hf
    subst hf
    have ht : strTruthy (some "") = false := rfl
    simp only [apply_findings, ht, Bool.false_eq_true, if_false]
    exact apply_status_findings p k st

/-- Witness for C8 (amended): replacing step 0 findings of `planW` with
`"new"` yields exactly `planW.step_findings.set 0 "new"`. -/
theorem C8_findings_full_replace_witness :
    update_step planW (some 0) none (some "new") = .ok (planWf, 0) ∧
    ("new" : String) ≠ "" ∧
    planWf.step_findings = planW.step_findings.set 0 "new" := by
  have h : update_step planW (some 0) none (some "new") = .ok (planWf, 0) := by
    rfl
  exact ⟨h, by decide,
    (C8_findings_full_replace planW (some 0) none "new" planWf 0 h).1
      (by decide)⟩

theorem approvalPhase_nil_approved (dang : List String)
    (apps : List (Option Bool)) :
    (approvalPhase dang [] apps).approved = true := rfl

theorem approvalPhase_events_no_result :
    ∀ (dang : List String) (lbs : List ToolUse) (apps : List (Option Bool))
      (e : Event), e ∈ (approvalPhase dang lbs apps).events →
      isToolResultEvent e = false := by
  intro dang lbs
  induction lbs with
  | nil =>
    intro apps e he
    simp [approvalPhase] at he
  | cons tb rest ih =>
    intro apps e he
    simp only [approvalPhase] at he
    split at he
    · cases apps with
      | nil =>
        simp at he
        rcases he with h | h <;> subst h <;> rfl
      | cons d apps' =>
        dsimp only [] at he
        split at he
        · simp at he
          rcases he with h | h | h
          · subst h; rfl
          · subst h; rfl
          · exact ih apps' e h
        · simp at he
          rcases he with h | h <;> subst h <;> rfl
    · simp at he
      rcases he with h | h
      · subst h; rfl
      · exact ih apps e h

theorem preEvents_no_result (th : Option ThinkingBlock) (tx : Option String)
    (tus : List ToolUse) (e : Event) (he : e ∈ preEvents th tx tus) :
    isToolResultEvent e = false := by
  cases th <;> cases tx <;> by_cases htus : tus.isEmpty = true <;>
    simp [preEvents, htus] at he <;>
    first
      | (subst he; rfl)
      | (obtain ⟨-, he⟩ := he; subst he; rfl)
      | (rcases he with he | he <;>
          first
            | (subst he; rfl)
            | (obtain ⟨-, he⟩ := he; subst he; rfl))

/-- Shared shape of a denied batch: the loop stores the pre-batch history,
emits the approval-walk events followed by `cancelled`, executes nothing,
and terminates. -/
theorem runLoop_denied (env : LoopEnv) (th : Option ThinkingBlock)
    (tx : Option String) (tus : List ToolUse) (sched : List Nat)
    (rest : List (Response × List Nat)) (apps : List (Option Bool))
    (msgs : List Message) (st : Option (List Message))
    (h : (approvalPhase env.dangerous
      (tus.filter (fun tb => env.tools.contains tb.name)) apps).approved =
      false) :
    runLoop env ((.success th tx tus, sched) :: rest) apps msgs st =
      ⟨preEvents th tx tus ++
        (approvalPhase env.dangerous
          (tus.filter (fun tb => env.tools.contains tb.name)) apps).events ++
        [.cancelled],
       msgs, some (store_msgs msgs), [], .cancelled⟩ := by
  have htus : tus.isEmpty = false := by
    cases tus with
    | nil => exact absurd h (by simp [approvalPhase])
    | cons a l => rfl
  simp only [runLoop, htus, Bool.false_eq_true, if_false, h]

/-- C1: every terminating run of the agent loop — final answer, approval
denial, or model-call/processing error — has written the history it
accumulated to the transcript store by the time its event stream ends. -/
theorem C1_persist_on_every_exit :
    ∀ (env : LoopEnv) (rs : List (Response × List Nat))
      (apps : List (Option Bool)) (msgs : List Message)
      (st : Option (List Message)),
      (runLoop env rs apps msgs st).exit ≠ LoopExit.outOfResponses →
      (runLoop env rs apps msgs st).stored =
        some (store_msgs (runLoop env rs apps msgs st).msgs) := by
  intro env rs
  induction rs with
  | nil =>
    intro apps msgs st h
    exact absurd rfl h
  | cons hd rest ih =>
    obtain ⟨r, sched⟩ := hd
    intro apps msgs st h
    cases r with
    | failure e => rfl
    | success th tx tus =>
      by_cases htus : tus.isEmpty = true
      · cases tx with
        | some t => simp [runLoop, htus]
        | none =>
          simp only [runLoop, htus, if_true] at h ⊢
          exact ih apps msgs st h
      · rw [Bool.not_eq_true] at htus
        by_cases hap : (approvalPhase env.dangerous
            (tus.filter (fun tb => env.tools.contains tb.name))
            apps).approved = true
        · simp only [runLoop, htus, Bool.false_eq_true, if_false, hap,
            if_true] at h ⊢
          exact ih _ _ _ h
        · rw [Bool.not_eq_true] at hap
          rw [runLoop_denied env th tx tus sched rest apps msgs st hap]

/-- Witness for C1: a one-response run ending in a final answer exits with
`done` and has the final history stored. -/
theorem C1_persist_on_every_exit_witness :
    (runLoop envW [(.success none (some "hi") [], [])] [] [userMsg]
      none).exit ≠ LoopExit.outOfResponses ∧
    (runLoop envW [(.success none (some "hi") [], [])] [] [userMsg]
      none).stored =
      some (store_msgs (runLoop envW [(.success none (some "hi") [], [])] []
        [userMsg] none).msgs) := by
  refine ⟨by decide, ?_⟩
  exact C1_persist_on_every_exit envW [(.success none (some "hi") [], [])] []
    [userMsg] none (by decide)

/-- C2: when any one privileged request of a batch is denied, none of the
batch's requests executes, no capability-result event is emitted, the
stream ends with the cancellation event, and the stored history is exactly
the pre-batch history. -/
theorem C2_denial_cancels_batch :
    ∀ (env : LoopEnv) (th : Option ThinkingBlock) (tx : Option String)
      (tus : List ToolUse) (sched : List Nat)
      (rest : List (Response × List Nat)) (apps : List (Option Bool))
      (msgs : List Message) (st : Option (List Message)),
      (approvalPhase env.dangerous
        (tus.filter (fun tb => env.tools.contains tb.name)) apps).approved =
        false →
      (runLoop env ((.success th tx tus, sched) :: rest) apps msgs st).msgs =
        msgs ∧
      (runLoop env ((.success th tx tus, sched) :: rest) apps msgs
        st).stored = some (store_msgs msgs) ∧
      (runLoop env ((.success th tx tus, sched) :: rest) apps msgs
        st).executed = [] ∧
      (runLoop env ((.success th tx tus, sched) :: rest) apps msgs st).exit =
        LoopExit.cancelled ∧
      (∀ e ∈ (runLoop env ((.success th tx tus, sched) :: rest) apps msgs
        st).events, isToolResultEvent e = false) ∧
      (runLoop env ((.success th tx tus, sched) :: rest) apps msgs
        st).events.getLast? = some Event.cancelled := by
  intro env th tx tus sched rest apps msgs st h
  rw [runLoop_denied env th tx tus sched rest apps msgs st h]
  refine ⟨rfl, rfl, rfl, rfl, ?_, ?_⟩
  · intro e he
    rcases List.mem_append.mp he with he | he
    · rcases List.mem_append.mp he with he | he
      · exact preEvents_no_result th tx tus e he
      · exact approvalPhase_events_no_result env.dangerous _ apps e he
    · rw [List.mem_singleton.mp he]
      rfl
  · exact List.getLast?_concat _

/-- Witness for C2: a batch holding one benign and one dangerous request
whose decision is `some false` is denied, executes nothing, and its stream
ends with `cancelled`. -/
theorem C2_denial_cancels_batch_witness :
    (approvalPhase envW.dangerous
      ([tbRead, tbBash].filter (fun tb => envW.tools.contains tb.name))
      [some false]).approved = false ∧
    (runLoop envW [(.success none none [tbRead, tbBash], [0, 1])]
      [some false] [userMsg] none).executed = [] ∧
    (runLoop envW [(.success none none [tbRead, tbBash], [0, 1])]
      [some false] [userMsg] none).events.getLast? = some Event.cancelled := by
  have h : (approvalPhase envW.dangerous
      ([tbRead, tbBash].filter (fun tb => envW.tools.contains tb.name))
      [some false]).approved = false := by decide
  have hc := C2_denial_cancels_batch envW none none [tbRead, tbBash] [0, 1]
    [] [some false] [userMsg] none h
  exact ⟨h, hc.2.2.1, hc.2.2.2.2.2⟩

theorem decisionTruthy_iff (d : Option Bool) :
    decisionTruthy d = true ↔ d = some true := by
  cases d with
  | none => simp [decisionTruthy]
  | some b => cases b <;> simp [decisionTruthy]

/-- C10: the approval gate is fail-closed — a batch passes the gate exactly
when every privileged request in it consumed an explicit `some true`
decision (so an unset cell `none` and an explicit `some false` both deny),
and a denied batch executes nothing. -/
theorem C10_fail_closed_gate :
    (∀ (dang : List String) (lbs : List ToolUse) (apps : List (Option Bool)),
      (approvalPhase dang lbs apps).approved = true ↔
        ((lbs.filter (fun tb => dang.contains tb.name)).length ≤ apps.length ∧
         ∀ d ∈ apps.take
           (lbs.filter (fun tb => dang.contains tb.name)).length,
           d = some true)) ∧
    (∀ (env : LoopEnv) (th : Option ThinkingBlock) (tx : Option String)
      (tus : List ToolUse) (sched : List Nat)
      (rest : List (Response × List Nat)) (apps : List (Option Bool))
      (msgs : List Message) (st : Option (List Message)),
      (approvalPhase env.dangerous
        (tus.filter (fun tb => env.tools.contains tb.name)) apps).approved =
        false →
      (runLoop env ((.success th tx tus, sched) :: rest) apps msgs
        st).executed = []) := by
  constructor
  · intro dang lbs
    induction lbs with
    | nil =>
      intro apps
      simp [approvalPhase]
    | cons tb rest ih =>
      intro apps
      by_cases hd : dang.contains tb.name = true
      · have hdm : tb.name ∈ dang := by simpa using hd
        have hflt : List.filter (fun tb => dang.contains tb.name) (tb :: rest)
            = tb :: List.filter (fun tb => dang.contains tb.name) rest :=
          List.filter_cons_of_pos hd
        cases apps with
        | nil =>
          have happ : (approvalPhase dang (tb :: rest) []).approved = false := by
            simp [approvalPhase, hdm]
          rw [happ, hflt]
          constructor
          · intro hfalse
            exact absurd hfalse (by simp)
          · rintro ⟨h1, -⟩
            simp at h1
        | cons d apps' =>
          by_cases hdt : decisionTruthy d = true
          · have hdT : d = some true := (decisionTruthy_iff d).mp hdt
            have happ : (approvalPhase dang (tb :: rest) (d :: apps')).approved
                = (approvalPhase dang rest apps').approved := by
              simp [approvalPhase, hdm, hdt]
            rw [happ, ih apps', hflt]
            simp only [List.length_cons, List.take_succ_cons,
              List.length_cons]
            constructor
            · rintro ⟨h1, h2⟩
              refine ⟨by omega, ?_⟩
              intro x hx
              rcases List.mem_cons.mp hx with hx | hx
              · rw [hx, hdT]
              · exact h2 x hx
            · rintro ⟨h1, h2⟩
              exact ⟨by omega, fun x hx => h2 x (List.mem_cons_of_mem _ hx)⟩
          · have happ : (approvalPhase dang (tb :: rest) (d :: apps')).approved
                = false := by
              simp [approvalPhase, hdm, hdt]
            rw [happ, hflt]
            simp only [List.length_cons, List.take_succ_cons]
            constructor
            · intro hfalse
              exact absurd hfalse (by simp)
            · rintro ⟨-, h2⟩
              exact absurd ((decisionTruthy_iff d).mpr
                (h2 d (List.mem_cons_self d _))) (by simpa using hdt)
      · have hdm : tb.name ∉ dang := by simpa using hd
        have hflt : List.filter (fun tb => dang.contains tb.name) (tb :: rest)
            = List.filter (fun tb => dang.contains tb.name) rest :=
          List.filter_cons_of_neg (by simpa using hd)
        have happ : (approvalPhase dang (tb :: rest) apps).approved
            = (approvalPhase dang rest apps).approved := by
          simp [approvalPhase, hdm]
        rw [happ, hflt]
        exact ih apps
  · intro env th tx tus sched rest apps msgs st h
    rw [runLoop_denied env th tx tus sched rest apps msgs st h]

/-- Witness for C10: a batch whose dangerous request gets `some true`
passes the gate; the characterization instantiated at one dangerous
request and one decision. -/
theorem C10_fail_closed_gate_witness :
    ((approvalPhase DANGEROUS_TOOLS [tbBash] [some true]).approved = true ↔
      (([tbBash].filter
          (fun tb => DANGEROUS_TOOLS.contains tb.name)).length ≤ 1 ∧
       ∀ d ∈ [some true].take
         ([tbBash].filter
           (fun tb => DANGEROUS_TOOLS.contains tb.name)).length,
         d = some true)) ∧
    (approvalPhase DANGEROUS_TOOLS [tbBash] [some true]).approved = true ∧
    (runLoop envW [(.success none none [tbBash], [0])] [none] [userMsg]
      none).executed = [] := by
  refine ⟨C10_fail_closed_gate.1 DANGEROUS_TOOLS [tbBash] [some true], by decide, ?_⟩
  exact C10_fail_closed_gate.2 envW none none [tbBash] [0] [] [none]
    [userMsg] none (by decide)

theorem fanIn_length :
    ∀ (cs : List (Nat × String)) (acc : List (Option String)),
      (fanIn acc cs).length = acc.length := by
  intro cs
  induction cs with
  | nil => intro acc; rfl
  | cons c rest ih =>
    intro acc
    rw [fanIn, ih]
    exact List.length_set ..

theorem fanIn_get (g : Nat → String) :
    ∀ (sched : List Nat) (acc : List (Option String)) (j : Nat),
      (∀ i ∈ sched, i < acc.length) →
      (fanIn acc (sched.map (fun i => (i, g i))))[j]? =
        if j ∈ sched then some (some (g j)) else acc[j]? := by
  intro sched
  induction sched with
  | nil =>
    intro acc j _
    simp [fanIn]
  | cons i0 rest ih =>
    intro acc j hmem
    have h0 : i0 < acc.length := hmem i0 (List.mem_cons_self ..)
    rw [List.map_cons, fanIn]
    rw [ih (acc.set i0 (some (g i0))) j
      (fun i hi => by
        rw [List.length_set]
        exact hmem i (List.mem_cons_of_mem _ hi))]
    by_cases hjr : j ∈ rest
    · simp [hjr]
    · by_cases hji : j = i0
      · subst hji
        simp [hjr, List.getElem?_set, h0]
      · have hij : ¬ i0 = j := fun hh => hji hh.symm
        simp [hjr, hji, List.getElem?_set, hij]

theorem filterMap_total (f : Nat → Option (Nat × String))
    (g : Nat → Nat × String) :
    ∀ (s : List Nat), (∀ i ∈ s, f i = some (g i)) →
      s.filterMap f = s.map g := by
  intro s
  induction s with
  | nil => intro _; rfl
  | cons a t ih =>
    intro hs
    rw [List.filterMap_cons, hs a (List.mem_cons_self ..), List.map_cons,
      ih (fun i hi => hs i (List.mem_cons_of_mem _ hi))]

/-- Gather is order-insensitive: for any completion order that is
a permutation of the request indices, the gathered list is the results in
request order. -/
theorem gather_perm (execTool : ToolUse → String) (lbs : List ToolUse)
    (sched : List Nat) (h : sched.Perm (List.range lbs.length)) :
    gather execTool lbs sched = lbs.map execTool := by
  have hmem : ∀ i ∈ sched, i < lbs.length := fun i hi =>
    List.mem_range.mp (h.mem_iff.mp hi)
  have hcomp : sched.filterMap
        (fun i => (lbs[i]?).map (fun tb => (i, execTool tb)))
      = sched.map
        (fun i => (i, execTool ((lbs[i]?).getD ⟨"", "", ""⟩))) := by
    apply filterMap_total
    intro i hi
    have hlt := hmem i hi
    rw [List.getElem?_eq_getElem hlt]
    rfl
  rw [gather, hcomp]
  apply List.ext_getElem?
  intro j
  rw [List.getElem?_map,
    fanIn_get _ sched (List.replicate lbs.length none) j
      (fun i hi => by
        rw [List.length_replicate]
        exact hmem i hi)]
  by_cases hj : j < lbs.length
  · have hjs : j ∈ sched := h.mem_iff.mpr (List.mem_range.mpr hj)
    simp [hjs, List.getElem?_eq_getElem hj]
  · have hjs : j ∉ sched := fun hin => hj (hmem j hin)
    have hn : lbs.length ≤ j := Nat.le_of_not_lt hj
    simp [hjs, List.getElem?_eq_none, hn]

theorem zip_map_result (f : ToolUse → String) :
    ∀ (l : List ToolUse),
      (l.zip (l.map f)).map (fun p => Block.tool_result p.1.id p.2)
        = l.map (fun tb => Block.tool_result tb.id (f tb)) := by
  intro l
  induction l with
  | nil => rfl
  | cons a t ih => simp [ih]

/-- C7: approved requests of one batch execute concurrently, and for every
completion order (any permutation of the request indices) the results are
folded into history in exactly the order the requests were issued: the
gathered results equal the in-request-order results, the folded
tool-result message lists them in request order, and the whole loop run is
unchanged by the completion order. -/
theorem C7_fold_in_request_order :
    ∀ (env : LoopEnv) (th : Option ThinkingBlock) (tx : Option String)
      (tus : List ToolUse) (sched : List Nat)
      (rest : List (Response × List Nat)) (apps : List (Option Bool))
      (msgs : List Message) (st : Option (List Message)),
      sched.Perm (List.range
        (tus.filter (fun tb => env.tools.contains tb.name)).length) →
      gather env.execTool (tus.filter (fun tb => env.tools.contains tb.name))
          sched =
        (tus.filter (fun tb => env.tools.contains tb.name)).map
          env.execTool ∧
      tool_result_msg (tus.filter (fun tb => env.tools.contains tb.name))
          (gather env.execTool
            (tus.filter (fun tb => env.tools.contains tb.name)) sched) =
        ⟨"user", .blocks
          ((tus.filter (fun tb => env.tools.contains tb.name)).map
            (fun tb => Block.tool_result tb.id (env.execTool tb)))⟩ ∧
      runLoop env ((.success th tx tus, sched) :: rest) apps msgs st =
        runLoop env ((.success th tx tus,
          List.range (tus.filter
            (fun tb => env.tools.contains tb.name)).length) :: rest) apps
          msgs st := by
  intro env th tx tus sched rest apps msgs st h
  have hg1 : gather env.execTool
      (tus.filter (fun tb => env.tools.contains tb.name)) sched =
      (tus.filter (fun tb => env.tools.contains tb.name)).map env.execTool :=
    gather_perm env.execTool _ sched h
  have hg2 : gather env.execTool
      (tus.filter (fun tb => env.tools.contains tb.name))
      (List.range (tus.filter
        (fun tb => env.tools.contains tb.name)).length) =
      (tus.filter (fun tb => env.tools.contains tb.name)).map env.execTool :=
    gather_perm env.execTool _ _ (List.Perm.refl _)
  refine ⟨hg1, ?_, ?_⟩
  · rw [hg1, tool_result_msg, zip_map_result]
  · simp only [runLoop, hg1, hg2]

/-- Witness for C7: two benign requests with completion order `[1, 0]`
(reverse of issue order) still gather and fold in request order. -/
theorem C7_fold_in_request_order_witness :
    List.Perm [1, 0] (List.range
      ([tbRead, tbRead2].filter
        (fun tb => envW.tools.contains tb.name)).length) ∧
    gather envW.execTool
        ([tbRead, tbRead2].filter (fun tb => envW.tools.contains tb.name))
        [1, 0] =
      ([tbRead, tbRead2].filter
        (fun tb => envW.tools.contains tb.name)).map envW.execTool := by
  have hp : List.Perm [1, 0] (List.range
      ([tbRead, tbRead2].filter
        (fun tb => envW.tools.contains tb.name)).length) := by decide
  exact ⟨hp, (C7_fold_in_request_order envW none none [tbRead, tbRead2]
    [1, 0] [] [] [] none hp).1⟩

theorem truncateStr_length_le (n : Nat) (s : String) :
    (truncateStr n s).length ≤ n := by
  show (s.data.take n).length ≤ n
  rw [List.length_take]
  exact Nat.min_le_left ..

set_option maxRecDepth 4000 in
/-- C9 counterexample: a tool whose raw result has 501 characters.  The
`tool_result` event is truncated to 500 characters, but the tool-result
block folded into the persisted history keeps all 501 — so the claim that
both carry at most the fixed limit is false. -/
theorem C9_untruncated_history_counterexample :
    (resultContents (runLoop envLong [(.success none none [tbRead], [0])] []
      [] none).msgs).map String.length = [501] ∧
    ((runLoop envLong [(.success none none [tbRead], [0])] [] []
      none).events.filterMap (fun e => match e with
        | .tool_result _ o => some o.length
        | _ => none)) = [500] ∧
    ¬(501 ≤ 500) := by
  refine ⟨by decide, by decide, by decide⟩

theorem filterMap_result_blocks :
    ∀ (ps : List (ToolUse × String)),
      ((ps.map (fun p => Block.tool_result p.1.id p.2)).filterMap
        (fun b => match b with
          | Block.tool_result _ c => some c
          | _ => none))
        = ps.map (fun p => p.2) := by
  intro ps
  induction ps with
  | nil => rfl
  | cons a t ih => simp [ih]

/-- C9 (amended): every `tool_result` event surfaced by the loop carries at
most 500 characters (`str(result)[:500]`), while the tool-result blocks
folded into history carry the raw, untruncated result texts. -/
theorem C9_event_truncated_history_raw :
    (∀ (env : LoopEnv) (rs : List (Response × List Nat))
      (apps : List (Option Bool)) (msgs : List Message)
      (st : Option (List Message)) (n o : String),
      Event.tool_result n o ∈ (runLoop env rs apps msgs st).events →
      o.length ≤ 500) ∧
    (∀ (lbs : List ToolUse) (results : List String),
      resultContents [tool_result_msg lbs results] =
        (lbs.zip results).map (fun p => p.2)) := by
  constructor
  · intro env rs
    induction rs with
    | nil =>
      intro apps msgs st n o he
      simp [runLoop] at he
    | cons hd rest ih =>
      obtain ⟨r, sched⟩ := hd
      intro apps msgs st n o he
      cases r with
      | failure e =>
        simp [runLoop] at he
      | success th tx tus =>
        by_cases htus : tus.isEmpty = true
        · cases tx with
          | some t =>
            simp only [runLoop, htus, if_true] at he
            rcases List.mem_append.mp he with he | he
            · have := preEvents_no_result th (some t) tus _ he
              simp [isToolResultEvent] at this
            · simp at he
          | none =>
            simp only [runLoop, htus, if_true] at he
            rcases List.mem_append.mp he with he | he
            · have := preEvents_no_result th none tus _ he
              simp [isToolResultEvent] at this
            · exact ih apps msgs st n o he
        · rw [Bool.not_eq_true] at htus
          by_cases hap : (approvalPhase env.dangerous
              (tus.filter (fun tb => env.tools.contains tb.name))
              apps).approved = true
          · simp only [runLoop, htus, Bool.false_eq_true, if_false, hap,
              if_true] at he
            rcases List.mem_append.mp he with he | he
            · rcases List.mem_append.mp he with he | he
              · rcases List.mem_append.mp he with he | he
                · have := preEvents_no_result th tx tus _ he
                  simp [isToolResultEvent] at this
                · have := approvalPhase_events_no_result env.dangerous _
                    apps _ he
                  simp [isToolResultEvent] at this
              · split at he
                · simp at he
                · obtain ⟨p, -, heq⟩ := List.mem_map.mp he
                  obtain ⟨-, ho⟩ := Event.tool_result.inj heq
                  rw [← ho]
                  exact truncateStr_length_le 500 p.2
            · exact ih _ _ _ n o he
          · rw [Bool.not_eq_true] at hap
            rw [runLoop_denied env th tx tus sched rest apps msgs st hap]
              at he
            rcases List.mem_append.mp he with he | he
            · rcases List.mem_append.mp he with he | he
              · have := preEvents_no_result th tx tus _ he
                simp [isToolResultEvent] at this
              · have := approvalPhase_events_no_result env.dangerous _
                  apps _ he
                simp [isToolResultEvent] at this
            · simp at he
  · intro lbs results
    have h1 : resultContents [tool_result_msg lbs results] =
        ((lbs.zip results).map
          (fun p => Block.tool_result p.1.id p.2)).filterMap
          (fun b => match b with
            | Block.tool_result _ c => some c
            | _ => none) := by
      simp only [resultContents, tool_result_msg, List.map_cons,
        List.map_nil, List.flatten_cons, List.flatten_nil, List.append_nil]
    rw [h1]
    exact filterMap_result_blocks (lbs.zip results)

/-- Witness for C9 (amended): the concrete run of `envW` emits a truncated
`tool_result` event, and a concrete folded message carries the raw
results. -/
theorem C9_event_truncated_history_raw_witness :
    Event.tool_result "read_" (truncateStr 500 "ok:read_") ∈
      (runLoop envW [(.success none none [tbRead], [0])] [] [userMsg]
        none).events ∧
    (truncateStr 500 ("ok:read_" : String)).length ≤ 500 ∧
    resultContents [tool_result_msg [tbRead] ["raw"]] =
      ([tbRead].zip ["raw"]).map (fun p => p.2) := by
  have hm : Event.tool_result "read_" (truncateStr 500 "ok:read_") ∈
      (runLoop envW [(.success none none [tbRead], [0])] [] [userMsg]
        none).events := by decide
  exact ⟨hm,
    C9_event_truncated_history_raw.1 envW
      [(.success none none [tbRead], [0])] [] [userMsg] none "read_" _ hm,
    C9_event_truncated_history_raw.2 [tbRead] ["raw"]⟩

theorem dropOldestUnit_length :
    ∀ (msgs msgs' : List Message), dropOldestUnit msgs = some msgs' →
      msgs'.length < msgs.length := by
  intro msgs
  induction msgs with
  | nil =>
    intro msgs' h
    simp [dropOldestUnit] at h
  | cons m rest ih =>
    intro msgs' h
    simp only [dropOldestUnit] at h
    split at h
    · cases hr : dropOldestUnit rest with
      | none => rw [hr] at h; simp at h
      | some r' =>
        rw [hr] at h
        simp at h
        subst h
        have := ih r' hr
        simp only [List.length_cons]
        omega
    · split at h
      · cases rest with
        | nil =>
          simp only [Option.some.injEq] at h
          subst h
          simp
        | cons r rest' =>
          simp only [Option.some.injEq] at h
          subst h
          split <;> simp <;> omega
      · simp only [Option.some.injEq] at h
        subst h
        simp

theorem dropOldestUnit_sublist :
    ∀ (msgs msgs' : List Message), dropOldestUnit msgs = some msgs' →
      msgs'.Sublist msgs := by
  intro msgs
  induction msgs with
  | nil =>
    intro msgs' h
    simp [dropOldestUnit] at h
  | cons m rest ih =>
    intro msgs' h
    simp only [dropOldestUnit] at h
    split at h
    · cases hr : dropOldestUnit rest with
      | none => rw [hr] at h; simp at h
      | some r' =>
        rw [hr] at h
        simp at h
        subst h
        exact List.Sublist.cons₂ m (ih r' hr)
    · split at h
      · cases rest with
        | nil =>
          simp only [Option.some.injEq] at h
          subst h
          exact List.nil_sublist _
        | cons r rest' =>
          simp only [Option.some.injEq] at h
          subst h
          split
          · exact ((List.sublist_cons_self r rest').trans
              (List.sublist_cons_self m _))
          · exact List.sublist_cons_self m _
      · simp only [Option.some.injEq] at h
        subst h
        exact List.sublist_cons_self m _

theorem dropOldestUnit_none :
    ∀ (msgs : List Message), dropOldestUnit msgs = none →
      ∀ m ∈ msgs, isSystem m = true := by
  intro msgs
  induction msgs with
  | nil =>
    intro _ m hm
    simp at hm
  | cons m rest ih =>
    intro h x hx
    simp only [dropOldestUnit] at h
    split at h
    · rename_i hm
      cases hr : dropOldestUnit rest with
      | none =>
        rcases List.mem_cons.mp hx with hx | hx
        · rw [hx]; exact hm
        · exact ih hr x hx
      | some r' => rw [hr] at h; simp at h
    · split at h
      · cases rest <;> simp at h
      · simp at h

/-- System messages carry no capability blocks: they are plain synthesized
prompts/reminders (§3 of the spec: requests live in assistant messages,
results in user messages). -/
def sysPlain (msgs : List Message) : Prop :=
  ∀ m ∈ msgs, isSystem m = true →
    hasToolUse m = false ∧ hasToolResult m = false

theorem dropOldestUnit_filter_sys :
    ∀ (msgs msgs' : List Message), sysPlain msgs →
      dropOldestUnit msgs = some msgs' →
      msgs'.filter isSystem = msgs.filter isSystem := by
  intro msgs
  induction msgs with
  | nil =>
    intro msgs' _ h
    simp [dropOldestUnit] at h
  | cons m rest ih =>
    intro msgs' hsys h
    simp only [dropOldestUnit] at h
    split at h
    · rename_i hm
      cases hr : dropOldestUnit rest with
      | none => rw [hr] at h; simp at h
      | some r' =>
        rw [hr] at h
        simp at h
        subst h
        have hrest := ih r' (fun x hx hs => hsys x (List.mem_cons_of_mem _ hx) hs) hr
        simp [List.filter_cons, hm, hrest]
    · rename_i hm
      have hmf : isSystem m = false := by simpa using hm
      split at h
      · cases rest with
        | nil =>
          simp at h
          subst h
          simp [List.filter_cons, hmf]
        | cons r rest' =>
          dsimp only [] at h
          by_cases hTR : hasToolResult r = true
          · rw [if_pos hTR] at h
            simp at h
            subst h
            have hrf : isSystem r = false := by
              by_cases hrs : isSystem r = true
              · obtain ⟨-, h2⟩ := hsys r
                  (List.mem_cons_of_mem _ (List.mem_cons_self r rest')) hrs
                rw [h2] at hTR
                exact absurd hTR (by simp)
              · simpa using hrs
            simp [List.filter_cons, hmf, hrf]
          · rw [if_neg hTR] at h
            simp at h
            subst h
            simp [List.filter_cons, hmf]
      · simp at h
        subst h
        simp [List.filter_cons, hmf]

theorem dropOldestUnit_suffix :
    ∀ (msgs msgs' : List Message), dropOldestUnit msgs = some msgs' →
      msgs'.filter (fun m => !isSystem m) <:+
        msgs.filter (fun m => !isSystem m) := by
  intro msgs
  induction msgs with
  | nil =>
    intro msgs' h
    simp [dropOldestUnit] at h
  | cons m rest ih =>
    intro msgs' h
    simp only [dropOldestUnit] at h
    split at h
    · rename_i hm
      cases hr : dropOldestUnit rest with
      | none => rw [hr] at h; simp at h
      | some r' =>
        rw [hr] at h
        simp at h
        subst h
        have hrest := ih r' hr
        simpa [List.filter_cons, hm] using hrest
    · rename_i hm
      have hmf : isSystem m = false := by simpa using hm
      split at h
      · cases rest with
        | nil =>
          simp at h
          subst h
          exact List.nil_suffix
        | cons r rest' =>
          dsimp only [] at h
          by_cases hTR : hasToolResult r = true
          · rw [if_pos hTR] at h
            simp at h
            subst h
            have step1 : rest'.filter (fun m => !isSystem m) <:+
                (r :: rest').filter (fun m => !isSystem m) := by
              by_cases hrs : isSystem r = true
              · simp [List.filter_cons, hrs]
              · have hrf : isSystem r = false := by simpa using hrs
                simp only [List.filter_cons, hrf, Bool.not_false, if_true]
                exact List.suffix_cons r _
            refine step1.trans ?_
            simp only [List.filter_cons, hmf, Bool.not_false]
            exact List.suffix_cons m _
          · rw [if_neg hTR] at h
            simp at h
            subst h
            simp only [List.filter_cons, hmf, Bool.not_false]
            exact List.suffix_cons m _
      · simp at h
        subst h
        simp only [List.filter_cons, hmf, Bool.not_false]
        exact List.suffix_cons m _

theorem dropOldestUnit_paired :
    ∀ (msgs msgs' : List Message), sysPlain msgs → pairedOK msgs = true →
      dropOldestUnit msgs = some msgs' → pairedOK msgs' = true := by
  intro msgs
  induction msgs with
  | nil =>
    intro msgs' _ _ h
    simp [dropOldestUnit] at h
  | cons m rest ih =>
    intro msgs' hsys hp h
    simp only [dropOldestUnit] at h
    split at h
    · rename_i hm
      obtain ⟨hTU, hTR⟩ := hsys m (List.mem_cons_self m rest) hm
      rw [pairedOK.eq_def] at hp
      dsimp only [] at hp
      rw [if_neg (by simp [hTU])] at hp
      obtain ⟨hTRm, hprest⟩ := Bool.and_eq_true_iff.mp hp
      cases hr : dropOldestUnit rest with
      | none => rw [hr] at h; simp at h
      | some r' =>
        rw [hr] at h
        simp at h
        subst h
        rw [pairedOK.eq_def]
        dsimp only []
        rw [if_neg (by simp [hTU])]
        exact Bool.and_eq_true_iff.mpr ⟨hTRm,
          ih r' (fun x hx hs => hsys x (List.mem_cons_of_mem _ hx) hs)
            hprest hr⟩
    · rename_i hm
      split at h
      · rename_i hTU
        cases rest with
        | nil =>
          rw [pairedOK.eq_def] at hp
          dsimp only [] at hp
          rw [if_pos hTU] at hp
          simp at hp
        | cons r rest' =>
          rw [pairedOK.eq_def] at hp
          dsimp only [] at hp
          rw [if_pos hTU] at hp
          dsimp only [] at hp h
          obtain ⟨hTRr, hprest⟩ := Bool.and_eq_true_iff.mp hp
          rw [if_pos hTRr] at h
          simp at h
          subst h
          exact hprest
      · rename_i hTU
        rw [pairedOK.eq_def] at hp
        dsimp only [] at hp
        rw [if_neg hTU] at hp
        obtain ⟨-, hprest⟩ := Bool.and_eq_true_iff.mp hp
        simp at h
        subst h
        exact hprest

theorem token_cutter_aux_sublist (tok : Message → Nat) (B : Nat) :
    ∀ (fuel : Nat) (msgs : List Message),
      (token_cutter_aux tok B fuel msgs).Sublist msgs := by
  intro fuel
  induction fuel with
  | zero => intro msgs; exact List.Sublist.refl _
  | succ n ih =>
    intro msgs
    rw [token_cutter_aux]
    split
    · exact List.Sublist.refl _
    · cases hr : dropOldestUnit msgs with
      | none => exact List.Sublist.refl _
      | some msgs' =>
        exact (ih msgs').trans (dropOldestUnit_sublist msgs msgs' hr)

theorem token_cutter_aux_suffix (tok : Message → Nat) (B : Nat) :
    ∀ (fuel : Nat) (msgs : List Message),
      (token_cutter_aux tok B fuel msgs).filter (fun m => !isSystem m) <:+
        msgs.filter (fun m => !isSystem m) := by
  intro fuel
  induction fuel with
  | zero => intro msgs; exact List.suffix_refl _
  | succ n ih =>
    intro msgs
    rw [token_cutter_aux]
    split
    · exact List.suffix_refl _
    · cases hr : dropOldestUnit msgs with
      | none => exact List.suffix_refl _
      | some msgs' =>
        exact (ih msgs').trans (dropOldestUnit_suffix msgs msgs' hr)

theorem token_cutter_aux_filter_sys (tok : Message → Nat) (B : Nat) :
    ∀ (fuel : Nat) (msgs : List Message), sysPlain msgs →
      (token_cutter_aux tok B fuel msgs).filter isSystem =
        msgs.filter isSystem := by
  intro fuel
  induction fuel with
  | zero => intro msgs _; rfl
  | succ n ih =>
    intro msgs hsys
    rw [token_cutter_aux]
    split
    · rfl
    · cases hr : dropOldestUnit msgs with
      | none => rfl
      | some msgs' =>
        have hsys' : sysPlain msgs' := fun x hx hs =>
          hsys x ((dropOldestUnit_sublist msgs msgs' hr).subset hx) hs
        rw [ih msgs' hsys']
        exact dropOldestUnit_filter_sys msgs msgs' hsys hr

theorem token_cutter_aux_paired (tok : Message → Nat) (B : Nat) :
    ∀ (fuel : Nat) (msgs : List Message), sysPlain msgs →
      pairedOK msgs = true →
      pairedOK (token_cutter_aux tok B fuel msgs) = true := by
  intro fuel
  induction fuel with
  | zero => intro msgs _ hp; exact hp
  | succ n ih =>
    intro msgs hsys hp
    rw [token_cutter_aux]
    split
    · exact hp
    · cases hr : dropOldestUnit msgs with
      | none => exact hp
      | some msgs' =>
        have hsys' : sysPlain msgs' := fun x hx hs =>
          hsys x ((dropOldestUnit_sublist msgs msgs' hr).subset hx) hs
        exact ih msgs' hsys' (dropOldestUnit_paired msgs msgs' hsys hp hr)

theorem token_cutter_aux_fits (tok : Message → Nat) (B : Nat) :
    ∀ (fuel : Nat) (msgs : List Message), msgs.length ≤ fuel →
      sysPlain msgs → totalTokens tok (msgs.filter isSystem) ≤ B →
      totalTokens tok (token_cutter_aux tok B fuel msgs) ≤ B := by
  intro fuel
  induction fuel with
  | zero =>
    intro msgs hlen _ _
    have hnil : msgs = [] := List.length_eq_zero.mp (Nat.le_zero.mp hlen)
    subst hnil
    simp [token_cutter_aux, totalTokens]
  | succ n ih =>
    intro msgs hlen hsys hfit
    rw [token_cutter_aux]
    split
    · rename_i hle
      exact hle
    · cases hr : dropOldestUnit msgs with
      | none =>
        have hall := dropOldestUnit_none msgs hr
        have hself : msgs.filter isSystem = msgs :=
          List.filter_eq_self.mpr hall
        rw [← hself]
        exact hfit
      | some msgs' =>
        have hlen' : msgs'.length ≤ n := by
          have := dropOldestUnit_length msgs msgs' hr
          omega
        have hsys' : sysPlain msgs' := fun x hx hs =>
          hsys x ((dropOldestUnit_sublist msgs msgs' hr).subset hx) hs
        have hfit' : totalTokens tok (msgs'.filter isSystem) ≤ B := by
          rw [dropOldestUnit_filter_sys msgs msgs' hsys hr]
          exact hfit
        exact ih msgs' hlen' hsys' hfit'

/-- C3 counterexample: with a single system message of one token and
budget 0 the trim returns the system message (system messages are always
preserved), so the result exceeds the budget — the claim's unconditional
"token count at most B" is false. -/
theorem C3_budget_counterexample :
    token_cutter [sysMsg] (fun _ => 1) 0 = [sysMsg] ∧
    totalTokens (fun _ => 1) (token_cutter [sysMsg] (fun _ => 1) 0) = 1 ∧
    ¬(1 ≤ 0) := by
  exact ⟨rfl, rfl, by decide⟩

/-- C3 (amended): for histories whose system messages are plain (carry no
capability blocks), the trim returns an ordered subsequence of the input
that preserves every system message, drops only the oldest non-system
messages (the kept non-system messages are a suffix of the input's),
never splits a paired request/result unit, and — provided the
always-preserved system messages alone fit the budget — has encoded token
count at most the budget. -/
theorem C3_trim_contract (H : List Message) (tok : Message → Nat) (B : Nat) :
    (token_cutter H tok B).Sublist H ∧
    (token_cutter H tok B).filter (fun m => !isSystem m) <:+
      H.filter (fun m => !isSystem m) ∧
    (sysPlain H →
      (token_cutter H tok B).filter isSystem = H.filter isSystem ∧
      (pairedOK H = true → pairedOK (token_cutter H tok B) = true) ∧
      (totalTokens tok (H.filter isSystem) ≤ B →
        totalTokens tok (token_cutter H tok B) ≤ B)) := by
  refine ⟨token_cutter_aux_sublist tok B H.length H,
    token_cutter_aux_suffix tok B H.length H, ?_⟩
  intro hsys
  exact ⟨token_cutter_aux_filter_sys tok B H.length H hsys,
    fun hp => token_cutter_aux_paired tok B H.length H hsys hp,
    fun hfit => token_cutter_aux_fits tok B H.length H (Nat.le_refl _)
      hsys hfit⟩

/-- Witness for C3 (amended): a four-message history with one
request/result pair and budget 2 trims to the system message plus the
latest user message, keeps pairing intact, and fits the budget. -/
theorem C3_trim_contract_witness :
    sysPlain [sysMsg, reqMsg, resMsg, userMsg] ∧
    pairedOK [sysMsg, reqMsg, resMsg, userMsg] = true ∧
    totalTokens (fun _ => 1)
      ([sysMsg, reqMsg, resMsg, userMsg].filter isSystem) ≤ 2 ∧
    token_cutter [sysMsg, reqMsg, resMsg, userMsg] (fun _ => 1) 2 =
      [sysMsg, userMsg] ∧
    pairedOK (token_cutter [sysMsg, reqMsg, resMsg, userMsg]
      (fun _ => 1) 2) = true ∧
    totalTokens (fun _ => 1)
      (token_cutter [sysMsg, reqMsg, resMsg, userMsg] (fun _ => 1) 2) ≤ 2 := by
  have hsys : sysPlain [sysMsg, reqMsg, resMsg, userMsg] := by
    intro m hm hs
    fin_cases hm <;> simp_all [isSystem, hasToolUse, hasToolResult, sysMsg,
      reqMsg, resMsg, userMsg]
  have h3 := (C3_trim_contract [sysMsg, reqMsg, resMsg, userMsg]
    (fun _ => 1) 2).2.2 hsys
  exact ⟨hsys, by decide, by decide, by rfl, h3.2.1 (by decide),
    h3.2.2 (by decide)⟩
